import Mathlib

/-!
Verification of the transaction-ingestion and narration-classification
pipeline (a single-file Python application, `app.py`).

The shallow embedding below translates the functions of `app.py` into
executable Lean definitions:

* narration values are `Option String` (`none` models a missing/NaN value);
* `handle_nan` is the normalization `str(narration) if pd.notnull(narration) else ""`;
* `extract_sender_receiver_name` embeds the regular-expression search
  `re.findall(r"\b(?:[A-Z]+\s)+[A-Z]+\b", ...)` as an explicit
  leftmost, greedy, backtracking matcher over character lists;
* `extract_payment_method` embeds `re.findall(r"(?:UPI|IMPS|NEFT|RTGS)\b", ...)`
  (note: the pattern has a word boundary only AFTER the token, none before);
* `extract_payment_platform` embeds the lowercase keyword `if/elif` chain;
* the csv loader, the Amount-column summation and the `main` dispatch are
  embedded further below.

Character classes model the ASCII semantics of the regex classes
(`[A-Z]`, `\w` = alphanumeric or underscore, `\s` = ASCII whitespace);
the bank-narration domain of the application is ASCII text.
-/

/-- Word-constituent character, the ASCII reading of the regex class w
(letters, digits, underscore). Word boundaries of the patterns in
`app.py` are defined by this class. -/
def isWordCh (c : Char) : Bool := c.isAlphanum || c == '_'

/-- Whitespace character, the ASCII reading of the regex class s. -/
def isSpaceCh (c : Char) : Bool :=
  c == ' ' || c == '\t' || c == '\n' || c == '\r' || c == '\x0b' || c == '\x0c'

/-- A word boundary holds just before `rest` when the previous character is a
word character: that is, `rest` is empty or starts with a non-word character. -/
def boundaryB (rest : List Char) : Bool :=
  match rest with
  | [] => true
  | c :: _ => !isWordCh c

/-- Embedding of `handle_nan` from `app.py`:
`str(narration) if pd.notnull(narration) else ""`.
A `none` input models a NaN/null narration. -/
def handle_nan (narration : Option String) : String :=
  match narration with
  | some s => s
  | none => ""

/-! ## Name extractor: the pattern of `extract_sender_receiver_name` -/

/-- Greedy backtracking matcher for the tail of the name pattern,
matching one or more groups of (single whitespace, nonempty uppercase run),
ending at a word boundary.  Given text immediately after an uppercase run,
it returns the matched characters, preferring to extend with further
groups (the greedy `+`) and falling back to ending the match at the last
run followed by a word boundary, exactly as the regex engine backtracks.
The recursion consumes at least one character per step; the explicit fuel,
set to the length of the text, keeps it structural. -/
def tailMatchGo : Nat → List Char → Option (List Char)
  | _, [] => none
  | 0, _ :: _ => none
  | fuel + 1, c :: t =>
    if isSpaceCh c then
      if t.takeWhile Char.isUpper = [] then none
      else
        match tailMatchGo fuel (t.dropWhile Char.isUpper) with
        | some m => some (c :: (t.takeWhile Char.isUpper ++ m))
        | none =>
          if boundaryB (t.dropWhile Char.isUpper) then
            some (c :: t.takeWhile Char.isUpper)
          else none
    else none

/-- The tail matcher at its sufficient fuel. -/
def tailMatch (l : List Char) : Option (List Char) :=
  tailMatchGo l.length l

/-- Attempt of the full name pattern at the current position.
`prevWord` records whether the character just before the position is a
word character (false at the start of the string), which decides the
leading word boundary.  The body is a nonempty uppercase run followed by
`tailMatch`. -/
def matchAt (prevWord : Bool) (l : List Char) : Option (List Char) :=
  match l with
  | [] => none
  | c :: _ =>
    if prevWord == isWordCh c then none
    else
      if l.takeWhile Char.isUpper = [] then none
      else
        match tailMatch (l.dropWhile Char.isUpper) with
        | some m => some (l.takeWhile Char.isUpper ++ m)
        | none => none

/-- Left-to-right scan of `re.findall`: the first position where the name
pattern matches wins. -/
def nameScan (prevWord : Bool) (l : List Char) : Option (List Char) :=
  match l with
  | [] => none
  | c :: t =>
    match matchAt prevWord (c :: t) with
    | some m => some m
    | none => nameScan (isWordCh c) t

/-- Embedding of `extract_sender_receiver_name` from `app.py`:
first match of the pattern (?:[A-Z]+ s)+[A-Z]+ between word boundaries,
or `None` when the pattern does not occur. -/
def extract_sender_receiver_name (narration : Option String) : Option String :=
  (nameScan false (handle_nan narration).data).map String.mk

/-! ## Payment-method extractor: the pattern of `extract_payment_method` -/

/-- The four method tokens, in the alternation order of the pattern. -/
def methodToks : List (List Char) :=
  [['U', 'P', 'I'], ['I', 'M', 'P', 'S'], ['N', 'E', 'F', 'T'], ['R', 'T', 'G', 'S']]

/-- Attempt of the method pattern at the current position: some alternation
token is a literal prefix here and is followed by a word boundary.  The
pattern carries NO word boundary before the token. -/
def tokMatchAt (l : List Char) : Option (List Char) :=
  methodToks.findSome? fun t =>
    if t.isPrefixOf l && boundaryB (l.drop t.length) then some t else none

/-- Left-to-right scan of `re.findall` for the method pattern. -/
def methodScan (l : List Char) : Option (List Char) :=
  match l with
  | [] => none
  | c :: t =>
    match tokMatchAt (c :: t) with
    | some m => some m
    | none => methodScan t

/-- Embedding of `extract_payment_method` from `app.py`: first match of
(?:UPI|IMPS|NEFT|RTGS) followed by a word boundary, or `None`. -/
def extract_payment_method (narration : Option String) : Option String :=
  (methodScan (handle_nan narration).data).map String.mk

/-- Whole-word occurrence test for the method tokens, as the specification
reads: some token matches at a position with a word boundary after it AND a
word boundary before it (start of text or a preceding non-word character). -/
def hasWholeWordTok (s : List Char) : Bool :=
  (List.range (s.length + 1)).any fun i =>
    (tokMatchAt (s.drop i)).isSome &&
      (decide (i = 0) || !(isWordCh (s.getD (i - 1) ' ')))

/-! ## Payment-platform classifier: `extract_payment_platform` -/

/-- The closed platform enumeration.  The Python code returns the display
strings `PhonePe`, `Paytm`, `Bharat Pay`, `ATM`, `Google Pay`; the
constructors name the same five values. -/
inductive Platform where
  | PhonePe
  | Paytm
  | BharatPay
  | ATM
  | GooglePay
deriving DecidableEq

/-- ASCII lowercasing of one character, the effect of the Python `str.lower`
on ASCII text. -/
def asciiLower (c : Char) : Char :=
  if c.isUpper then Char.ofNat (c.toNat + 32) else c

/-- ASCII lowercasing of a character list. -/
def pyLower (s : List Char) : List Char := s.map asciiLower

/-- Substring test, the Python `in` operator on strings. -/
def containsSub (hay pat : List Char) : Bool :=
  match hay with
  | [] => pat.isEmpty
  | _ :: t => pat.isPrefixOf hay || containsSub t pat

/-- The `if/elif` cascade of `extract_payment_platform`, applied to the
lowercased narration text. -/
def platformChain (n : List Char) : Option Platform :=
  if containsSub n "phone pe".data || containsSub n "@ybl".data
      || containsSub n "@axl".data then some Platform.PhonePe
  else if containsSub n "paytm".data then some Platform.Paytm
  else if containsSub n "bharatpe".data then some Platform.BharatPay
  else if containsSub n "cash wdl".data then some Platform.ATM
  else if containsSub n "@ok".data then some Platform.GooglePay
  else none

/-- Embedding of `extract_payment_platform` from `app.py`: the narration is
normalized, lowercased, then tested against the keyword chain in the fixed
order of the `if/elif` cascade. -/
def extract_payment_platform (narration : Option String) : Option Platform :=
  platformChain (pyLower (handle_nan narration).data)

/-- The rule table of the specification for the platform classifier, in its
fixed priority order. -/
def platformRules : List (List String × Platform) :=
  [(["phone pe", "@ybl", "@axl"], Platform.PhonePe),
   (["paytm"], Platform.Paytm),
   (["bharatpe"], Platform.BharatPay),
   (["cash wdl"], Platform.ATM),
   (["@ok"], Platform.GooglePay)]

/-- Specification-side rule evaluation: the first rule one of whose
keywords occurs in the text decides the value; no matching rule yields
none. -/
def ruleEval : List (List String × Platform) → List Char → Option Platform
  | [], _ => none
  | r :: rs, n =>
    if r.1.any (fun k => containsSub n k.data) then some r.2 else ruleEval rs n

/-! ## Specification-side description of the name heuristic

The specification describes the name heuristic as: scan left to right for
the first maximal run of two or more space-separated all-uppercase
alphabetic tokens, where a token is a whole word (a maximal run of
word characters) and consecutive tokens of a run are separated by one
whitespace character.  The definitions below state that description
directly (token at a position, maximal extension of a run, first run),
independently of the regex matcher above; the refinement theorem for the
name heuristic compares the two. -/

/-- The whole word starting at the current position, provided it is a
nonempty all-uppercase alphabetic token; together with the remaining text. -/
def tokenAt (l : List Char) : Option (List Char × List Char) :=
  let w := l.takeWhile isWordCh
  if w = [] then none
  else if w.all Char.isUpper then some (w, l.dropWhile isWordCh) else none

/-- Maximal extension of a token run: as long as the text continues with a
single whitespace character followed by another all-uppercase token, the run
absorbs both; the extension is returned verbatim (separators included).
The fuel, set to the length of the text, keeps the recursion structural. -/
def chainExtGo : Nat → List Char → List Char
  | _, [] => []
  | 0, _ :: _ => []
  | fuel + 1, c :: t =>
    if isSpaceCh c then
      if t.takeWhile isWordCh = [] then []
      else if (t.takeWhile isWordCh).all Char.isUpper then
        c :: (t.takeWhile isWordCh ++ chainExtGo fuel (t.dropWhile isWordCh))
      else []
    else []

/-- The run extension at its sufficient fuel. -/
def chainExt (l : List Char) : List Char :=
  chainExtGo l.length l

/-- The token run starting at the current position, provided the position
starts a word (`prevWord` is false), the word is an all-uppercase token and
the maximal run extending it has at least two tokens. -/
def chainAt (prevWord : Bool) (l : List Char) : Option (List Char) :=
  if prevWord then none
  else
    match tokenAt l with
    | none => none
    | some (w, rest) =>
      if chainExt rest = [] then none else some (w ++ chainExt rest)

/-- Left-to-right scan for the first position starting a run of two or more
tokens. -/
def specNameScan (prevWord : Bool) (l : List Char) : Option (List Char) :=
  match l with
  | [] => none
  | c :: t =>
    match chainAt prevWord (c :: t) with
    | some m => some m
    | none => specNameScan (isWordCh c) t

/-- Specification-side name extractor: the first maximal run of two or more
single-whitespace-separated all-uppercase word tokens of the normalized
narration, returned as a single string, or `none` when no such run exists. -/
def specName (narration : Option String) : Option String :=
  (specNameScan false (handle_nan narration).data).map String.mk

/-- The portion of a token run after its first token: each later token is
written as its separator character followed by its letters. -/
def tailRender (rest : List (Char × List Char)) : List Char :=
  (rest.map (fun q => q.1 :: q.2)).flatten

/-- A token run written out: the first token, then each further token with
its one-character separator. -/
def runRender (first : List Char) (rest : List (Char × List Char)) : List Char :=
  first ++ tailRender rest

/-! ## Tabular loading (csv) and the Amount column

`main` loads a csv upload with `pd.read_csv` on the decoded text: rows are
the nonblank lines, the first row is the header, and subsequent rows map
positionally to the header names.  The embedding parses by splitting on
the line and field separators; the well-formedness hypotheses of the
theorems below (cells free of separator and quote characters, rectangular
shape, nonblank lines) restrict the statements to inputs on which this
faithfully models the csv dialect of the loader. -/

/-- Split a character list at every occurrence of the separator. -/
def splitOnCh (sep : Char) (l : List Char) : List (List Char) :=
  match l with
  | [] => [[]]
  | c :: t =>
    if c = sep then [] :: splitOnCh sep t
    else
      match splitOnCh sep t with
      | [] => [[c]]
      | h :: r => (c :: h) :: r

/-- Join character lists with a separator between consecutive parts. -/
def joinWith (sep : Char) (parts : List (List Char)) : List Char :=
  match parts with
  | [] => []
  | [x] => x
  | x :: y :: r => x ++ sep :: joinWith sep (y :: r)

/-- A table: the cells of the header row and of each data row. -/
abbrev Row := List (List Char)

/-- Embedding of the csv parse in `main`: decode, split into nonblank
lines, split each line at commas; the first row is the header. -/
def readCsvTable (s : List Char) : List Row :=
  ((splitOnCh '\n' s).filter (· ≠ [])).map (splitOnCh ',')

/-- Render a table as csv text (used to state the round-trip property). -/
def renderCsv (t : List Row) : List Char :=
  joinWith '\n' (t.map (joinWith ','))

/-- A csv cell on which the embedded parse agrees with the csv dialect of
the loader: free of the field and record separators, of carriage returns
and of the quote character. -/
def csvCellOk (cell : List Char) : Prop :=
  ',' ∉ cell ∧ '\n' ∉ cell ∧ '\r' ∉ cell ∧ '"' ∉ cell

instance (cell : List Char) : Decidable (csvCellOk cell) := by
  unfold csvCellOk
  infer_instance

/-- A well-formed table for the round-trip statement: a nonempty header
holding a Narration column, plain cells, rectangular rows, and no row that
renders as a blank line (the loader skips blank lines). -/
def wellformedCsv (header : Row) (rows : List Row) : Prop :=
  header ≠ [] ∧ joinWith ',' header ≠ [] ∧
    "Narration".data ∈ header ∧
    (∀ cell ∈ header, csvCellOk cell) ∧
    (∀ row ∈ rows, row ≠ [] ∧ row.length = header.length ∧
      (∀ cell ∈ row, csvCellOk cell) ∧ joinWith ',' row ≠ [])

/-- Position of a named column in the header, the lookup
`header.index(name)` behind the `df[name]` column accesses. -/
def colIndex (header : Row) (name : List Char) : Option Nat :=
  header.indexOf? name

/-- Cell of a row at a column position; a row short of the position reads as
an empty cell (a missing value). -/
def cellAt (row : Row) (j : Nat) : List Char := row.getD j []

/-- Decimal digit accumulator. -/
def digitsToNat (l : List Char) : Nat :=
  l.foldl (fun a c => a * 10 + (c.toNat - 48)) 0

/-- Leading and trailing whitespace removed, as the numeric converter of
the loader skips it around a number. -/
def trimSpaces (l : List Char) : List Char :=
  ((l.dropWhile isSpaceCh).reverse.dropWhile isSpaceCh).reverse

/-- The default missing-value tokens of the loader: a cell equal to one of
these is read as a missing value (NaN) in any column, never as text or as
a number. -/
def naTokens : List (List Char) :=
  (["", "#N/A", "#N/A N/A", "#NA", "-1.#IND", "-1.#QNAN", "-NaN", "-nan",
    "1.#IND", "1.#QNAN", "<NA>", "N/A", "NA", "NULL", "NaN", "None",
    "n/a", "nan", "null"] : List String).map String.data

/-- Missing-value test for one raw cell. -/
def cellIsNa (c : List Char) : Bool := naTokens.contains c

/-- Exponent part of a scientific-notation literal: an optional sign and a
nonempty digit run. -/
def parseExp (l : List Char) : Option ℤ :=
  match l with
  | '+' :: r => if !r.isEmpty && r.all Char.isDigit then some (digitsToNat r : ℤ) else none
  | '-' :: r => if !r.isEmpty && r.all Char.isDigit then some (-(digitsToNat r : ℤ)) else none
  | r => if !r.isEmpty && r.all Char.isDigit then some (digitsToNat r : ℤ) else none

/-- Scaling of a mantissa by a power of ten. -/
def applyExp (q : ℚ) : ℤ → ℚ
  | Int.ofNat n => q * (10 : ℚ) ^ n
  | Int.negSucc n => q / (10 : ℚ) ^ (n + 1)

/-- Parse of an unsigned numeric literal as the loader's converter reads
it: a digit run with an optional fraction — `.5` and `100.` forms
included — and an optional exponent. -/
def parseUnsigned (l : List Char) : Option ℚ :=
  let ip := l.takeWhile Char.isDigit
  match l.dropWhile Char.isDigit with
  | [] => if ip.isEmpty then none else some (digitsToNat ip : ℚ)
  | '.' :: r2 =>
    let fp := r2.takeWhile Char.isDigit
    if ip.isEmpty && fp.isEmpty then none
    else
      let mant : ℚ :=
        if fp.isEmpty then (digitsToNat ip : ℚ)
        else (digitsToNat ip : ℚ) + (digitsToNat fp : ℚ) / ((10 : ℚ) ^ fp.length)
      match r2.dropWhile Char.isDigit with
      | [] => some mant
      | c :: r3 =>
        if c == 'e' || c == 'E' then (parseExp r3).map (applyExp mant) else none
  | c :: r2 =>
    if !ip.isEmpty && (c == 'e' || c == 'E') then
      (parseExp r2).map (applyExp (digitsToNat ip : ℚ))
    else none

/-- The numeric conversion the csv loader applies to a cell: surrounding
whitespace skipped, an optional sign, then an integer, decimal (in the
`.5` and `100.` forms too) or scientific literal covering the whole cell.
The value is kept exact as a rational where the loader uses a float. -/
def parseDecimal (l : List Char) : Option ℚ :=
  match trimSpaces l with
  | '-' :: r => (parseUnsigned r).map Neg.neg
  | '+' :: r => parseUnsigned r
  | t => parseUnsigned t

/-- An infinity literal, which the loader converts to a non-finite float:
an optional sign and the word inf (or infinity), case-insensitive. -/
def infBody (c : List Char) : Bool :=
  pyLower c == "inf".data || pyLower c == "infinity".data

/-- Infinity test for one raw cell. -/
def isInfCell (c : List Char) : Bool :=
  match trimSpaces c with
  | '+' :: r => infBody r
  | '-' :: r => infBody r
  | t => infBody t

/-- The value of `total_amount` in `main`: a rational sum when the Amount
column is numeric and finite, the literal unavailable marker
(the string `N/A (Amount column not found)`) when there is no Amount
column, a non-finite float value when a numeric column holds an infinity
cell, the concatenation of the raw cell texts when the column holds
non-numeric text (the object-dtype sum of the loader concatenates), and a
type error when such a textual column also has missing cells. -/
inductive TotalAmount where
  | marker
  | num (q : ℚ)
  | nonfinite
  | strres (s : List Char)
  | typeError
deriving DecidableEq

/-- The Amount cells of a table, when the header has an Amount column. -/
def amountCells (header : Row) (rows : List Row) : Option (List (List Char)) :=
  (colIndex header "Amount".data).map fun j => rows.map (fun r => cellAt r j)

/-- The column sum of `df[Amount].sum()`.  A column all of whose cells are
missing or numeric sums the present values and skips the missing ones; if
such a column also holds infinity cells the float sum is non-finite; a
column with a cell that is none of missing, numeric or infinite is kept
as text (object dtype): with no missing cell its sum concatenates the
raw cell texts, with a missing cell it fails with a type error. -/
def sumColumn (cells : List (List Char)) : TotalAmount :=
  if cells.all (fun c => cellIsNa c || (parseDecimal c).isSome) then
    TotalAmount.num ((cells.filterMap parseDecimal).foldl (· + ·) 0)
  else if cells.all (fun c => cellIsNa c || (parseDecimal c).isSome || isInfCell c) then
    TotalAmount.nonfinite
  else if cells.all (fun c => !cellIsNa c) then
    TotalAmount.strres (cells.flatten)
  else TotalAmount.typeError

/-- Embedding of the `total_amount` computation of `main` over a loaded
table. -/
def totalAmountOf (header : Row) (rows : List Row) : TotalAmount :=
  match amountCells header rows with
  | none => TotalAmount.marker
  | some cells => sumColumn cells

/-! ## Narration enrichment of a table and the document path -/

/-- The narration value handed to the extractors for one row: the cell of
the Narration column, where an empty csv cell is a missing value (`none`).
The outer `Option` is the presence of the Narration column itself; its
absence fails the pipeline (a key error). -/
def narrationOfRow (header : Row) (row : Row) : Option (Option String) :=
  (colIndex header "Narration".data).map fun j =>
    if cellAt row j = [] then none else some (String.mk (cellAt row j))

/-- The three derived fields of one narration value, exactly the three
`apply` columns of `main`. -/
def classify (n : Option String) :
    Option String × Option String × Option Platform :=
  (extract_sender_receiver_name n, extract_payment_method n,
    extract_payment_platform n)

/-- A table row together with its derived fields. -/
structure EnrichedRow where
  row : Row
  name : Option String
  method : Option String
  platform : Option Platform
deriving DecidableEq

/-- One row together with its three derived columns. -/
def enrichRow (header : Row) (r : Row) : EnrichedRow :=
  { row := r
    name := (classify ((narrationOfRow header r).getD none)).1
    method := (classify ((narrationOfRow header r).getD none)).2.1
    platform := (classify ((narrationOfRow header r).getD none)).2.2 }

/-- Enrichment of all rows of a table; fails (key error) when the header
has no Narration column. -/
def enrichTable (header : Row) (rows : List Row) : Option (List EnrichedRow) :=
  (colIndex header "Narration".data).map fun _ => rows.map (enrichRow header)

/-- Embedding of `extract_text_from_pdf`: the embedded text of the pages in
physical order, concatenated.  A page value is the text `page.get_text()`
returns for it. -/
def extract_text_from_pdf (pages : List String) : String :=
  pages.foldl (· ++ ·) ""

/-- Embedding of `extract_text_from_docx`: each paragraph text followed by a
newline, concatenated in document order (`text += paragraph.text + "\n"`). -/
def extract_text_from_docx (paragraphs : List String) : String :=
  paragraphs.foldl (fun acc p => acc ++ p ++ "\n") ""

/-- A document-sourced record: the single narration string, the entity
annotation of the collaborator, and the derived fields. -/
structure DocRecord where
  narration : String
  entities : List (String × String)
  name : Option String
  method : Option String
  platform : Option Platform

/-- The one record of the document path, enriched as `main` enriches the
one-row frame it builds. -/
def docRecordOf (text : String) (ents : List (String × String)) : DocRecord :=
  { narration := text
    entities := ents
    name := (classify (some text)).1
    method := (classify (some text)).2.1
    platform := (classify (some text)).2.2 }

/-! ## The `main` dispatch -/

/-- The declared media types `main` dispatches on. -/
def csvMime : String := "text/csv"

/-- The spreadsheet media type of the dispatch. -/
def xlsxMime : String :=
  "application/vnd.openxmlformats-officedocument.spreadsheetml.sheet"

/-- The PDF media type of the dispatch. -/
def pdfMime : String := "application/pdf"

/-- The word-processing media type of the dispatch. -/
def docxMime : String :=
  "application/vnd.openxmlformats-officedocument.wordprocessingml.document"

/-- An upload: the declared media type plus the payload each branch of the
dispatch would read from the byte stream.  Only the payload of the
dispatched branch is consumed. -/
structure UploadedFile where
  declaredType : String
  csvText : String
  xlsxRows : List Row
  pdfPages : List String
  docxParas : List String

/-- Failures of the pipeline, by kind: the unsupported-format report of the
`else` branch, the unbound-variable error the fall-through then raises, and
the key error of a missing required column. -/
inductive PipeError where
  | unsupportedFormat
  | nameError (unboundName : String)
  | keyError (column : String)
deriving DecidableEq

/-- The loaded frame: a table (csv and spreadsheet branches) or the one-row
document frame (pdf and word-processing branches). -/
inductive Df where
  | tab (header : Row) (rows : List Row)
  | doc (narration : String) (entities : List (String × String))

/-- Modelled from the spec: `process_pdf_file` and `process_docx_file` are
called by `main` but are missing from the source file; per the
specification the document path extracts the full text
(`extract_text_from_pdf` / `extract_text_from_docx`) and obtains the
entity annotation from the external collaborator, here an explicit
function argument `ner`. -/
def dispatchDf (ner : String → List (String × String)) (f : UploadedFile) :
    Option Df :=
  if f.declaredType = csvMime then
    some (Df.tab ((readCsvTable f.csvText.data).headD [])
      (readCsvTable f.csvText.data).tail)
  else if f.declaredType = xlsxMime then
    some (Df.tab (f.xlsxRows.headD []) f.xlsxRows.tail)
  else if f.declaredType = pdfMime then
    some (Df.doc (extract_text_from_pdf f.pdfPages)
      (ner (extract_text_from_pdf f.pdfPages)))
  else if f.declaredType = docxMime then
    some (Df.doc (extract_text_from_docx f.docxParas)
      (ner (extract_text_from_docx f.docxParas)))
  else none

/-- The processed output handed to the presentation collaborator: the
enriched records and the total. -/
inductive MainData where
  | tabular (header : Row) (records : List EnrichedRow) (total : TotalAmount)
  | document (records : List DocRecord) (total : TotalAmount)

/-- Outcome of one upload: the failure reports emitted, and the data when
processing completed. -/
structure MainOutcome where
  errors : List PipeError
  result : Option MainData

/-- Embedding of `main`: dispatch on the declared type; the `else` branch
reports the unsupported format but does not return, so the following
column access raises an unbound-variable error on `df`, which the
enclosing handler reports as a second failure.  On the tabular path a
missing Narration column raises a key error; otherwise the total and the
enriched records are produced. -/
def mainModel (ner : String → List (String × String)) (f : UploadedFile) :
    MainOutcome :=
  match dispatchDf ner f with
  | none =>
    { errors := [PipeError.unsupportedFormat, PipeError.nameError "df"]
      result := none }
  | some (Df.tab header rows) =>
    match enrichTable header rows with
    | none => { errors := [PipeError.keyError "Narration"], result := none }
    | some recs =>
      { errors := []
        result := some (MainData.tabular header recs (totalAmountOf header rows)) }
  | some (Df.doc text ents) =>
    { errors := []
      result := some (MainData.document [docRecordOf text ents] TotalAmount.marker) }

/-! ## Lemmas: character classes -/

/-- Uppercase letters are word characters. -/
theorem upper_word {c : Char} (h : c.isUpper = true) : isWordCh c = true := by
  simp [isWordCh, Char.isAlphanum, Char.isAlpha, h]

/-- Whitespace characters are not word characters. -/
theorem space_not_word {c : Char} (h : isSpaceCh c = true) : isWordCh c = false := by
  simp only [isSpaceCh, Bool.or_eq_true, beq_iff_eq] at h
  rcases h with ((((h | h) | h) | h) | h) | h <;> subst h <;> decide

/-- Word characters are not whitespace. -/
theorem word_not_space {c : Char} (h : isWordCh c = true) : isSpaceCh c = false := by
  cases hs : isSpaceCh c
  · rfl
  · rw [space_not_word hs] at h
    exact absurd h (by simp)

/-- The head left after `dropWhile` falsifies the predicate. -/
theorem dropWhile_head_not {p : Char → Bool} {l : List Char} {d : Char}
    {rd : List Char} (h : l.dropWhile p = d :: rd) : p d = false := by
  have h2 := List.head?_dropWhile_not p l
  rw [h] at h2
  simpa using h2

/-- Every element of `takeWhile` satisfies the predicate, as a `Bool` check. -/
theorem all_takeWhile (p : Char → Bool) (l : List Char) :
    (l.takeWhile p).all p = true := by
  simp only [List.all_eq_true]
  intro x hx
  exact List.mem_takeWhile_imp hx

/-- The word run of a position decomposes as its uppercase run followed by
the word run of the rest. -/
theorem takeWhile_word_eq (t : List Char) :
    t.takeWhile isWordCh =
      t.takeWhile Char.isUpper ++ (t.dropWhile Char.isUpper).takeWhile isWordCh := by
  conv_lhs => rw [← List.takeWhile_append_dropWhile (p := Char.isUpper) (l := t)]
  rw [List.takeWhile_append_of_pos
    (fun a ha => upper_word (List.mem_takeWhile_imp ha))]

/-- Dropping the word run is dropping the uppercase run, then the word rest. -/
theorem dropWhile_word_eq (t : List Char) :
    t.dropWhile isWordCh = (t.dropWhile Char.isUpper).dropWhile isWordCh := by
  conv_lhs => rw [← List.takeWhile_append_dropWhile (p := Char.isUpper) (l := t)]
  rw [List.dropWhile_append_of_pos
    (fun a ha => upper_word (List.mem_takeWhile_imp ha))]

/-! ## Lemmas: the regex matcher agrees with the run description -/

/-- Any fuel at least the length of the text gives the tail matcher the
same answer. -/
theorem tailMatchGo_fuel :
    ∀ (fuel : Nat) (l : List Char), l.length ≤ fuel →
      tailMatchGo fuel l = tailMatchGo l.length l := by
  intro fuel
  induction fuel using Nat.strong_induction_on with
  | _ fuel ih =>
    intro l hl
    cases l with
    | nil => cases fuel <;> rfl
    | cons c t =>
      cases fuel with
      | zero => simp at hl
      | succ n =>
        have ht : t.length ≤ n := by
          simp only [List.length_cons] at hl
          omega
        have hd : (t.dropWhile Char.isUpper).length ≤ t.length :=
          (List.dropWhile_sublist Char.isUpper).length_le
        simp only [List.length_cons, tailMatchGo]
        rw [ih n (Nat.lt_succ_self n) _ (le_trans hd ht),
          ih t.length (Nat.lt_succ_of_le ht) _ hd]

/-- Unfolding lemma for `tailMatch` on a nonempty list. -/
theorem tailMatch_cons (c : Char) (t : List Char) :
    tailMatch (c :: t) =
      if isSpaceCh c then
        if t.takeWhile Char.isUpper = [] then none
        else
          match tailMatch (t.dropWhile Char.isUpper) with
          | some m => some (c :: (t.takeWhile Char.isUpper ++ m))
          | none =>
            if boundaryB (t.dropWhile Char.isUpper) then
              some (c :: t.takeWhile Char.isUpper)
            else none
      else none := by
  show tailMatchGo (c :: t).length (c :: t) = _
  simp only [List.length_cons, tailMatchGo]
  rw [tailMatchGo_fuel t.length (t.dropWhile Char.isUpper)
    (List.dropWhile_sublist Char.isUpper).length_le]
  rfl

/-- Any fuel at least the length of the text gives the run extension the
same answer. -/
theorem chainExtGo_fuel :
    ∀ (fuel : Nat) (l : List Char), l.length ≤ fuel →
      chainExtGo fuel l = chainExtGo l.length l := by
  intro fuel
  induction fuel using Nat.strong_induction_on with
  | _ fuel ih =>
    intro l hl
    cases l with
    | nil => cases fuel <;> rfl
    | cons c t =>
      cases fuel with
      | zero => simp at hl
      | succ n =>
        have ht : t.length ≤ n := by
          simp only [List.length_cons] at hl
          omega
        have hd : (t.dropWhile isWordCh).length ≤ t.length :=
          (List.dropWhile_sublist isWordCh).length_le
        simp only [List.length_cons, chainExtGo]
        rw [ih n (Nat.lt_succ_self n) _ (le_trans hd ht),
          ih t.length (Nat.lt_succ_of_le ht) _ hd]

/-- Unfolding lemma for `chainExt` on a nonempty list. -/
theorem chainExt_cons (c : Char) (t : List Char) :
    chainExt (c :: t) =
      if isSpaceCh c then
        if t.takeWhile isWordCh = [] then []
        else if (t.takeWhile isWordCh).all Char.isUpper then
          c :: (t.takeWhile isWordCh ++ chainExt (t.dropWhile isWordCh))
        else []
      else [] := by
  show chainExtGo (c :: t).length (c :: t) = _
  simp only [List.length_cons, chainExtGo]
  rw [chainExtGo_fuel t.length (t.dropWhile isWordCh)
    (List.dropWhile_sublist isWordCh).length_le]
  rfl

/-- The empty text has no run extension. -/
theorem chainExt_nil : chainExt [] = [] := rfl

/-- The empty text has no token. -/
theorem tokenAt_nil : tokenAt [] = none := by
  simp [tokenAt]

/-- No token starts at a non-word character. -/
theorem tokenAt_not_word {c : Char} (t : List Char) (h : isWordCh c = false) :
    tokenAt (c :: t) = none := by
  unfold tokenAt
  rw [List.takeWhile_cons_of_neg (by simp [h])]
  rfl

/-- The greedy backtracking tail matcher returns exactly the maximal token
run extension, failing precisely when the extension is empty. -/
theorem tailMatch_eq_chainExt :
    ∀ (n : Nat) (l : List Char), l.length ≤ n →
      tailMatch l = if chainExt l = [] then none else some (chainExt l) := by
  intro n
  induction n with
  | zero =>
    intro l hl
    have hnil : l = [] := List.length_eq_zero.mp (Nat.le_zero.mp hl)
    subst hnil
    decide
  | succ n ih =>
    intro l hl
    cases l with
    | nil => decide
    | cons c t =>
      by_cases hsp : isSpaceCh c = true
      · rw [tailMatch_cons, chainExt_cons, if_pos hsp, if_pos hsp]
        cases hu : t.takeWhile Char.isUpper with
        | nil =>
          rw [if_pos rfl]
          cases t with
          | nil => simp
          | cons d td =>
            have hd : d.isUpper = false := by
              cases hdu : d.isUpper
              · rfl
              · rw [List.takeWhile_cons_of_pos hdu] at hu
                exact absurd hu (by simp)
            by_cases hwd : isWordCh d = true
            · rw [List.takeWhile_cons_of_pos hwd]
              have : ((d :: td.takeWhile isWordCh).all Char.isUpper) = false := by
                simp [hd]
              simp [this]
            · rw [List.takeWhile_cons_of_neg (by simp [hwd])]
              simp
        | cons u ru =>
          have hlen : (t.dropWhile Char.isUpper).length ≤ n := by
            have h1 := (List.dropWhile_sublist (l := t) Char.isUpper).length_le
            simp only [List.length_cons] at hl
            omega
          have hword : t.takeWhile isWordCh =
              (u :: ru) ++ (t.dropWhile Char.isUpper).takeWhile isWordCh := by
            rw [takeWhile_word_eq, hu]
          have hallup : (u :: ru).all Char.isUpper = true := by
            rw [← hu]; exact all_takeWhile _ _
          cases hr : t.dropWhile Char.isUpper with
          | nil =>
            rw [hr] at hword
            simp only [List.takeWhile_nil, List.append_nil] at hword
            have hdw : t.dropWhile isWordCh = [] := by
              rw [dropWhile_word_eq, hr]; rfl
            rw [hword, hdw]
            simp [tailMatch, tailMatchGo, hallup, chainExt, chainExtGo, boundaryB]
          | cons d rd =>
            have hd : d.isUpper = false := dropWhile_head_not hr
            rw [hr] at hword
            by_cases hwd : isWordCh d = true
            · rw [List.takeWhile_cons_of_pos hwd] at hword
              rw [hword]
              have hallf : (((u :: ru) ++ d :: (rd.takeWhile isWordCh)).all
                  Char.isUpper) = false := by
                simp [hd]
              have htm : tailMatch (d :: rd) = none := by
                rw [tailMatch_cons, if_neg (by simp [word_not_space hwd])]
              rw [htm]
              have hb : boundaryB (d :: rd) = false := by
                simp [boundaryB, hwd]
              rw [if_neg (show ¬((u :: ru) ++ d :: (rd.takeWhile isWordCh) = [])
                by simp), hallf]
              simp [hb]
            · rw [List.takeWhile_cons_of_neg (by simp [hwd])] at hword
              simp only [List.append_nil] at hword
              rw [hword]
              have hdw : t.dropWhile isWordCh = d :: rd := by
                rw [dropWhile_word_eq, hr,
                  List.dropWhile_cons_of_neg (by simp [hwd])]
              rw [hdw]
              have hrec := ih (d :: rd) (by rw [← hr]; exact hlen)
              by_cases hce : chainExt (d :: rd) = []
              · rw [hce, if_pos rfl] at hrec
                rw [hrec, hce]
                have hb : boundaryB (d :: rd) = true := by
                  simp [boundaryB, hwd]
                simp [hb, hallup]
              · rw [if_neg hce] at hrec
                rw [hrec]
                simp [hce, hallup]
      · rw [tailMatch_cons, chainExt_cons, if_neg hsp, if_neg hsp]
        simp

/-- Closure of the previous lemma over all lists. -/
theorem tailMatch_chain (l : List Char) :
    tailMatch l = if chainExt l = [] then none else some (chainExt l) :=
  tailMatch_eq_chainExt l.length l (Nat.le_refl _)

/-- The pattern attempt at one position returns exactly the two-or-more
token run starting there, when there is one. -/
theorem matchAt_eq_chainAt (p : Bool) (l : List Char) :
    matchAt p l = chainAt p l := by
  cases l with
  | nil =>
    cases p <;> simp [matchAt, chainAt, tokenAt_nil]
  | cons c t =>
    cases p with
    | true =>
      cases hw : isWordCh c with
      | true => simp [matchAt, chainAt, hw]
      | false =>
        have hu : c.isUpper = false := by
          cases hcu : c.isUpper
          · rfl
          · rw [upper_word hcu] at hw; exact absurd hw (by simp)
        simp [matchAt, chainAt, hw, hu, List.takeWhile_cons_of_neg]
    | false =>
      cases hw : isWordCh c with
      | false =>
        simp [matchAt, chainAt, hw, tokenAt_not_word t hw]
      | true =>
        cases hu : c.isUpper with
        | false =>
          have htu : (c :: t).takeWhile Char.isUpper = [] :=
            List.takeWhile_cons_of_neg (by simp [hu])
          have htok : tokenAt (c :: t) = none := by
            unfold tokenAt
            rw [List.takeWhile_cons_of_pos hw,
              if_neg (List.cons_ne_nil c (t.takeWhile isWordCh))]
            simp [hu]
          simp [matchAt, chainAt, hw, htu, htok]
        | true =>
          have htu : (c :: t).takeWhile Char.isUpper =
              c :: t.takeWhile Char.isUpper := List.takeWhile_cons_of_pos hu
          have hword : (c :: t).takeWhile isWordCh =
              ((c :: t).takeWhile Char.isUpper)
                ++ ((c :: t).dropWhile Char.isUpper).takeWhile isWordCh :=
            takeWhile_word_eq (c :: t)
          have htune : (c :: t).takeWhile Char.isUpper ≠ [] := by
            rw [htu]; simp
          cases hr : (c :: t).dropWhile Char.isUpper with
          | nil =>
            rw [hr] at hword
            simp only [List.takeWhile_nil, List.append_nil] at hword
            have hdw : (c :: t).dropWhile isWordCh = [] := by
              rw [dropWhile_word_eq, hr]; rfl
            have htok : tokenAt (c :: t) =
                some ((c :: t).takeWhile Char.isUpper, []) := by
              unfold tokenAt
              rw [hword, if_neg htune, if_pos (all_takeWhile _ _), hdw]
            have hm : matchAt false (c :: t) = none := by
              simp [matchAt, hw, htu, hr, tailMatch, tailMatchGo]
            rw [hm]
            simp [chainAt, htok, chainExt_nil]
          | cons d rd =>
            have hd : d.isUpper = false := dropWhile_head_not hr
            rw [hr] at hword
            by_cases hwd : isWordCh d = true
            · rw [List.takeWhile_cons_of_pos hwd] at hword
              have htok : tokenAt (c :: t) = none := by
                unfold tokenAt
                rw [hword,
                  if_neg (show ¬((c :: t).takeWhile Char.isUpper
                    ++ d :: (rd.takeWhile isWordCh) = []) by simp [htu])]
                have hallf : (((c :: t).takeWhile Char.isUpper
                    ++ d :: (rd.takeWhile isWordCh)).all Char.isUpper)
                    = false := by simp [hd]
                rw [hallf]
                simp
              have htm : tailMatch (d :: rd) = none := by
                rw [tailMatch_cons, if_neg (by simp [word_not_space hwd])]
              have hm : matchAt false (c :: t) = none := by
                simp [matchAt, hw, htu, hr, htm]
              rw [hm]
              simp [chainAt, htok]
            · rw [List.takeWhile_cons_of_neg (p := isWordCh) (a := d)
                (by simp [hwd])] at hword
              simp only [List.append_nil] at hword
              have hdw : (c :: t).dropWhile isWordCh = d :: rd := by
                rw [dropWhile_word_eq, hr,
                  List.dropWhile_cons_of_neg (by simp [hwd])]
              have htok : tokenAt (c :: t) =
                  some ((c :: t).takeWhile Char.isUpper, d :: rd) := by
                unfold tokenAt
                rw [hword, if_neg htune, if_pos (all_takeWhile _ _), hdw]
              have htm := tailMatch_chain (d :: rd)
              by_cases hce : chainExt (d :: rd) = []
              · rw [hce, if_pos rfl] at htm
                have hm : matchAt false (c :: t) = none := by
                  simp [matchAt, hw, htu, hr, htm]
                rw [hm]
                simp [chainAt, htok, hce]
              · rw [if_neg hce] at htm
                have hm : matchAt false (c :: t) =
                    some ((c :: t).takeWhile Char.isUpper
                      ++ chainExt (d :: rd)) := by
                  simp [matchAt, hw, htu, hr, htm]
                rw [hm]
                simp [chainAt, htok, hce]

/-- The two left-to-right scans agree at every suffix. -/
theorem nameScan_eq_specNameScan (p : Bool) (l : List Char) :
    nameScan p l = specNameScan p l := by
  induction l generalizing p with
  | nil => simp [nameScan, specNameScan]
  | cons c t ih =>
    rw [nameScan, specNameScan, matchAt_eq_chainAt]
    cases chainAt p (c :: t) with
    | none => exact ih (isWordCh c)
    | some m => rfl

/-! ## Lemmas: runs written with explicit separators -/

/-- Whitespace characters are not uppercase letters. -/
theorem space_not_upper {c : Char} (h : isSpaceCh c = true) : c.isUpper = false := by
  cases hu : c.isUpper
  · rfl
  · have h1 := upper_word hu
    rw [space_not_word h] at h1
    exact absurd h1 (by simp)

/-- The tail matcher accepts a rendered nonempty token tail in full. -/
theorem tailMatch_render :
    ∀ (rest : List (Char × List Char)), rest ≠ [] →
      (∀ q ∈ rest, isSpaceCh q.1 = true ∧ q.2 ≠ [] ∧ q.2.all Char.isUpper = true) →
      tailMatch (tailRender rest) = some (tailRender rest) := by
  intro rest
  induction rest with
  | nil => intro h; exact absurd rfl h
  | cons q rest2 ih =>
    intro _ hcond
    obtain ⟨hs, htokne, htokall⟩ := hcond q (by simp)
    have htokup : ∀ a ∈ q.2, a.isUpper = true := by
      intro a ha
      exact (List.all_eq_true.mp htokall) a ha
    have hrender : tailRender (q :: rest2) = q.1 :: (q.2 ++ tailRender rest2) := by
      simp [tailRender]
    rw [hrender, tailMatch_cons, if_pos hs]
    cases hrest2 : rest2 with
    | nil =>
      have hexp : tailRender ([] : List (Char × List Char)) = [] := by
        simp [tailRender]
      rw [hexp]
      rw [List.append_nil]
      have htake : q.2.takeWhile Char.isUpper = q.2 := by
        rw [List.takeWhile_eq_self_iff.mpr htokup]
      have hdrop : q.2.dropWhile Char.isUpper = [] := by
        rw [List.dropWhile_eq_nil_iff.mpr htokup]
      rw [htake, hdrop, if_neg htokne]
      simp [tailMatch, tailMatchGo, boundaryB]
    | cons q2 rest3 =>
      obtain ⟨hs2, _, _⟩ := hcond q2 (by simp [hrest2])
      have hrender2 : tailRender (q2 :: rest3) = q2.1 :: (q2.2 ++ tailRender rest3) := by
        simp [tailRender]
      have hnotup : ¬(q2.1.isUpper = true) := by
        simp [space_not_upper hs2]
      have htake : (q.2 ++ tailRender (q2 :: rest3)).takeWhile Char.isUpper
          = q.2 := by
        rw [List.takeWhile_append_of_pos htokup, hrender2,
          List.takeWhile_cons_of_neg hnotup]
        exact List.append_nil _
      have hdrop : (q.2 ++ tailRender (q2 :: rest3)).dropWhile Char.isUpper
          = tailRender (q2 :: rest3) := by
        rw [List.dropWhile_append_of_pos htokup, hrender2,
          List.dropWhile_cons_of_neg hnotup, ← hrender2]
      rw [htake, hdrop, if_neg htokne]
      have hihres := ih (by simp [hrest2])
        (fun p hp => hcond p (by simp [hp]))
      rw [hrest2] at *
      rw [hihres]

/-- The full pattern accepts a rendered run of two or more tokens at a
position not preceded by a word character. -/
theorem matchAt_render (first : List Char) (rest : List (Char × List Char))
    (hfne : first ≠ []) (hfall : first.all Char.isUpper = true)
    (hrne : rest ≠ [])
    (hcond : ∀ q ∈ rest, isSpaceCh q.1 = true ∧ q.2 ≠ [] ∧
      q.2.all Char.isUpper = true) :
    matchAt false (runRender first rest) = some (runRender first rest) := by
  have hfup : ∀ a ∈ first, a.isUpper = true := fun a ha =>
    (List.all_eq_true.mp hfall) a ha
  obtain ⟨q, rest2, hrc⟩ : ∃ q rest2, rest = q :: rest2 := by
    cases rest with
    | nil => exact absurd rfl hrne
    | cons q rest2 => exact ⟨q, rest2, rfl⟩
  obtain ⟨hs, _, _⟩ := hcond q (by simp [hrc])
  have hrender : tailRender (q :: rest2) = q.1 :: (q.2 ++ tailRender rest2) := by
    simp [tailRender]
  have hnotup : ¬(q.1.isUpper = true) := by
    simp [space_not_upper hs]
  have htake : (first ++ tailRender rest).takeWhile Char.isUpper = first := by
    rw [List.takeWhile_append_of_pos hfup, hrc, hrender,
      List.takeWhile_cons_of_neg hnotup, List.append_nil]
  have hdrop : (first ++ tailRender rest).dropWhile Char.isUpper
      = tailRender rest := by
    rw [List.dropWhile_append_of_pos hfup, hrc, hrender,
      List.dropWhile_cons_of_neg hnotup]
  have htm := tailMatch_render rest hrne hcond
  obtain ⟨f0, f1, hfc⟩ : ∃ f0 f1, first = f0 :: f1 := by
    cases first with
    | nil => exact absurd rfl hfne
    | cons f0 f1 => exact ⟨f0, f1, rfl⟩
  have hword0 : isWordCh f0 = true := upper_word (hfup f0 (by simp [hfc]))
  have hrun : runRender first rest = f0 :: (f1 ++ tailRender rest) := by
    simp [runRender, hfc]
  rw [hrun]
  simp only [matchAt]
  rw [← List.cons_append, ← hfc, htake, hdrop, htm]
  simp [hword0, hfne]

/-- A successful pattern attempt at the current position is what the scan
returns. -/
theorem nameScan_of_matchAt {p : Bool} {l m : List Char}
    (h : matchAt p l = some m) : nameScan p l = some m := by
  cases l with
  | nil => exact absurd h (by simp [matchAt])
  | cons c t =>
    simp only [nameScan]
    rw [h]

/-! ## Lemmas: the payment-method scan -/

/-- The method pattern cannot match in the empty text. -/
theorem tokMatchAt_nil : tokMatchAt [] = none := by decide

/-- A match at the leftmost matching position is what the method scan
returns. -/
theorem methodScan_of_leftmost :
    ∀ (l : List Char) (i : Nat) (tl : List Char),
      tokMatchAt (l.drop i) = some tl →
      (∀ j, j < i → tokMatchAt (l.drop j) = none) →
      methodScan l = some tl := by
  intro l
  induction l with
  | nil =>
    intro i tl hi _
    rw [List.drop_nil] at hi
    rw [tokMatchAt_nil] at hi
    exact absurd hi (by simp)
  | cons c t ih =>
    intro i tl hi hmin
    cases i with
    | zero =>
      rw [List.drop_zero] at hi
      simp only [methodScan]
      rw [hi]
    | succ i2 =>
      have h0 : tokMatchAt (c :: t) = none := by
        have := hmin 0 (Nat.succ_pos i2)
        rwa [List.drop_zero] at this
      simp only [methodScan]
      rw [h0]
      exact ih i2 tl (by simpa using hi)
        (fun j hj => by simpa using hmin (j + 1) (Nat.succ_lt_succ hj))

/-- When no position matches, the method scan fails. -/
theorem methodScan_of_none :
    ∀ (l : List Char), (∀ i, tokMatchAt (l.drop i) = none) →
      methodScan l = none := by
  intro l
  induction l with
  | nil => intro _; rfl
  | cons c t ih =>
    intro h
    have h0 : tokMatchAt (c :: t) = none := by
      have := h 0
      rwa [List.drop_zero] at this
    simp only [methodScan]
    rw [h0]
    exact ih (fun i => by simpa using h (i + 1))

/-! ## Claim theorems: the narration heuristics -/

/-- Claim C6: for every narration string, the name extractor returns the
first (leftmost) maximal run of two or more all-uppercase word tokens
separated by single whitespace characters, as a single string, and returns
none when the narration contains no such multi-token run.  The
specification-side description is `specName`; the embedded regex extractor
agrees with it on every input. -/
theorem name_extractor_refines_run_spec :
    ∀ (narration : Option String),
      extract_sender_receiver_name narration = specName narration := by
  intro narration
  unfold extract_sender_receiver_name specName
  rw [nameScan_eq_specNameScan]

/-- Claim C10: the name extractor treats any single whitespace character
(space, tab, or newline) as a token separator and accepts single-letter
uppercase tokens as run members: a narration consisting of two or more
all-uppercase tokens (possibly single letters) separated by such
characters is returned in full as the name. -/
theorem name_extractor_any_whitespace_separator :
    ∀ (first : List Char) (rest : List (Char × List Char)),
      first ≠ [] → first.all Char.isUpper = true → rest ≠ [] →
      (∀ q ∈ rest, (q.1 = ' ' ∨ q.1 = '\t' ∨ q.1 = '\n') ∧ q.2 ≠ [] ∧
        q.2.all Char.isUpper = true) →
      extract_sender_receiver_name (some (String.mk (runRender first rest)))
        = some (String.mk (runRender first rest)) := by
  intro first rest hfne hfall hrne hcond
  have hcond2 : ∀ q ∈ rest, isSpaceCh q.1 = true ∧ q.2 ≠ [] ∧
      q.2.all Char.isUpper = true := by
    intro q hq
    obtain ⟨hsep, h2, h3⟩ := hcond q hq
    refine ⟨?_, h2, h3⟩
    rcases hsep with h | h | h <;> rw [h] <;> decide
  have hm := matchAt_render first rest hfne hfall hrne hcond2
  show (nameScan false (runRender first rest)).map String.mk
      = some (String.mk (runRender first rest))
  rw [nameScan_of_matchAt hm]
  rfl

/-- Claim C10, witness: a tab-separated pair of single-letter tokens is
returned in full. -/
theorem name_extractor_any_whitespace_separator_witness :
    extract_sender_receiver_name (some "A\tB") = some "A\tB" := by
  have h := name_extractor_any_whitespace_separator ['A'] [('\t', ['B'])]
    (by decide) (by decide) (by decide)
    (by intro q hq; simp at hq; rw [hq]; exact ⟨Or.inr (Or.inl rfl), by decide, by decide⟩)
  have hs : String.mk (runRender ['A'] [('\t', ['B'])]) = "A\tB" := by decide
  rw [hs] at h
  exact h

/-- Claim C1 (amended): the method extractor returns the token of the
leftmost position where one of UPI, IMPS, NEFT, RTGS occurs immediately
followed by a word boundary — the pattern requires no word boundary BEFORE
the token — and returns none exactly when no position matches. -/
theorem method_extractor_leftmost_boundary :
    (∀ (narration : Option String) (i : Nat) (tl : List Char),
        tokMatchAt ((handle_nan narration).data.drop i) = some tl →
        (∀ j, j < i → tokMatchAt ((handle_nan narration).data.drop j) = none) →
        extract_payment_method narration = some (String.mk tl)) ∧
    (∀ (narration : Option String),
        (∀ i, tokMatchAt ((handle_nan narration).data.drop i) = none) →
        extract_payment_method narration = none) := by
  constructor
  · intro narration i tl hi hmin
    unfold extract_payment_method
    rw [methodScan_of_leftmost _ i tl hi hmin]
    rfl
  · intro narration h
    unfold extract_payment_method
    rw [methodScan_of_none _ h]
    rfl

/-- Claim C1, witness: in a narration holding NEFT then UPI, the leftmost
match is NEFT. -/
theorem method_extractor_leftmost_boundary_witness :
    extract_payment_method (some "pay NEFT then UPI now") = some "NEFT" := by
  have h := method_extractor_leftmost_boundary.1 (some "pay NEFT then UPI now")
    4 "NEFT".data (by decide) (by decide)
  have hs : String.mk "NEFT".data = "NEFT" := by decide
  rw [hs] at h
  exact h

/-- Claim C1, counterexample: the narration XUPI contains no method token
as a whole word (UPI occurs, but directly after the word character X), yet
the extractor returns UPI rather than none, because the pattern lacks a
word boundary before the token. -/
theorem method_extractor_wholeword_counterexample :
    hasWholeWordTok "XUPI".data = false ∧
      extract_payment_method (some "XUPI") = some "UPI" := by
  constructor
  · decide
  · decide

/-- Claim C2 (amended): the platform classifier equals the rule table of
the specification evaluated in its fixed priority order on the lowercased
narration; it is case-insensitive (only the lowercased text matters); and
a narration containing both paytm and @ok, and not matching the
higher-priority PhonePe rule, classifies as Paytm by precedence regardless
of keyword positions. -/
theorem platform_rule_table :
    (∀ (narration : Option String),
        extract_payment_platform narration
          = ruleEval platformRules (pyLower (handle_nan narration).data)) ∧
    (∀ (s t : Option String),
        pyLower (handle_nan s).data = pyLower (handle_nan t).data →
        extract_payment_platform s = extract_payment_platform t) ∧
    (∀ (narration : Option String),
        containsSub (pyLower (handle_nan narration).data) "paytm".data = true →
        containsSub (pyLower (handle_nan narration).data) "@ok".data = true →
        (containsSub (pyLower (handle_nan narration).data) "phone pe".data
          || containsSub (pyLower (handle_nan narration).data) "@ybl".data
          || containsSub (pyLower (handle_nan narration).data) "@axl".data)
            = false →
        extract_payment_platform narration = some Platform.Paytm) := by
  refine ⟨?_, ?_, ?_⟩
  · intro narration
    simp only [extract_payment_platform, platformChain, ruleEval, platformRules,
      List.any_cons, List.any_nil, Bool.or_false, Bool.or_assoc]
  · intro s t h
    simp only [extract_payment_platform]
    rw [h]
  · intro narration h4 h7 h123
    simp only [extract_payment_platform, platformChain]
    rw [h123, h4]
    simp

/-- Claim C2, witness: with only paytm and @ok present, precedence gives
Paytm. -/
theorem platform_rule_table_witness :
    extract_payment_platform (some "pay paytm to x@ok now") = some Platform.Paytm :=
  platform_rule_table.2.2 (some "pay paytm to x@ok now")
    (by decide) (by decide) (by decide)

/-- Claim C2, counterexample: a narration containing paytm and @ok, but
also the rule-one keyword phone pe, classifies as PhonePe, not Paytm; the
tie statement of the claim holds only below the PhonePe rule. -/
theorem platform_precedence_counterexample :
    extract_payment_platform (some "phone pe paytm @ok") = some Platform.PhonePe ∧
      extract_payment_platform (some "phone pe paytm @ok") ≠ some Platform.Paytm := by
  constructor
  · decide
  · decide

/-- Claim C8: no heuristic fails on malformed input — each extractor is a
total function; a missing or null narration normalizes to the empty string
before classification (each extractor factors through `handle_nan`), and
the absence of a match is the ordinary value none, as on the empty
narration. -/
theorem heuristics_total_on_missing :
    handle_nan none = "" ∧
    (∀ (narration : Option String),
      extract_sender_receiver_name narration
          = extract_sender_receiver_name (some (handle_nan narration)) ∧
        extract_payment_method narration
          = extract_payment_method (some (handle_nan narration)) ∧
        extract_payment_platform narration
          = extract_payment_platform (some (handle_nan narration))) ∧
    extract_sender_receiver_name none = none ∧
    extract_payment_method none = none ∧
    extract_payment_platform none = none := by
  refine ⟨rfl, ?_, rfl, rfl, rfl⟩
  intro narration
  cases narration <;> exact ⟨rfl, rfl, rfl⟩

/-- The derived fields of an enriched record are the classification of the
narration value of its row. -/
theorem enrich_fields {header : Row} {rows : List Row} {recs : List EnrichedRow}
    {er : EnrichedRow} (he : enrichTable header rows = some recs)
    (hm : er ∈ recs) :
    er.name = (classify ((narrationOfRow header er.row).getD none)).1 ∧
      er.method = (classify ((narrationOfRow header er.row).getD none)).2.1 ∧
      er.platform = (classify ((narrationOfRow header er.row).getD none)).2.2 := by
  unfold enrichTable at he
  cases hc : colIndex header "Narration".data with
  | none => rw [hc] at he; exact absurd he (by simp)
  | some j =>
    rw [hc] at he
    have he2 : rows.map (enrichRow header) = recs := by
      simpa using he
    rw [← he2] at hm
    obtain ⟨r, _, hfr⟩ := List.mem_map.mp hm
    rw [← hfr]
    exact ⟨rfl, rfl, rfl⟩

/-- Claim C9: the derived fields are pure functions of the narration text
alone — two enriched records with the same narration value, from any two
tables and any row positions, carry identical derived fields, and a
table record whose narration equals the text of a document record carries
the derived fields of that document record. -/
theorem derived_fields_pure :
    (∀ (h1 : Row) (rows1 : List Row) (recs1 : List EnrichedRow)
        (h2 : Row) (rows2 : List Row) (recs2 : List EnrichedRow)
        (er1 er2 : EnrichedRow),
        enrichTable h1 rows1 = some recs1 →
        enrichTable h2 rows2 = some recs2 →
        er1 ∈ recs1 → er2 ∈ recs2 →
        narrationOfRow h1 er1.row = narrationOfRow h2 er2.row →
        er1.name = er2.name ∧ er1.method = er2.method ∧
          er1.platform = er2.platform) ∧
    (∀ (h1 : Row) (rows1 : List Row) (recs1 : List EnrichedRow)
        (er : EnrichedRow) (text : String) (ents : List (String × String)),
        enrichTable h1 rows1 = some recs1 → er ∈ recs1 →
        narrationOfRow h1 er.row = some (some text) →
        er.name = (docRecordOf text ents).name ∧
          er.method = (docRecordOf text ents).method ∧
          er.platform = (docRecordOf text ents).platform) := by
  constructor
  · intro h1 rows1 recs1 h2 rows2 recs2 er1 er2 he1 he2 hm1 hm2 hnarr
    obtain ⟨hn1, hme1, hp1⟩ := enrich_fields he1 hm1
    obtain ⟨hn2, hme2, hp2⟩ := enrich_fields he2 hm2
    rw [hn1, hme1, hp1, hn2, hme2, hp2, hnarr]
    exact ⟨rfl, rfl, rfl⟩
  · intro h1 rows1 recs1 er text ents he hm hnarr
    obtain ⟨hn, hme, hp⟩ := enrich_fields he hm
    rw [hn, hme, hp, hnarr]
    exact ⟨rfl, rfl, rfl⟩

/-- Claim C9, witness: the same narration in two differently shaped tables
yields the same derived fields. -/
theorem derived_fields_pure_witness :
    (EnrichedRow.mk ["UPI A B".data] (some "UPI A B") (some "UPI") none).name
      = (EnrichedRow.mk ["zz".data, "UPI A B".data] (some "UPI A B")
          (some "UPI") none).name ∧
    (EnrichedRow.mk ["UPI A B".data] (some "UPI A B") (some "UPI") none).method
      = (EnrichedRow.mk ["zz".data, "UPI A B".data] (some "UPI A B")
          (some "UPI") none).method ∧
    (EnrichedRow.mk ["UPI A B".data] (some "UPI A B") (some "UPI") none).platform
      = (EnrichedRow.mk ["zz".data, "UPI A B".data] (some "UPI A B")
          (some "UPI") none).platform :=
  derived_fields_pure.1 ["Narration".data] [["UPI A B".data]]
    [EnrichedRow.mk ["UPI A B".data] (some "UPI A B") (some "UPI") none]
    ["X".data, "Narration".data] [["zz".data, "UPI A B".data]]
    [EnrichedRow.mk ["zz".data, "UPI A B".data] (some "UPI A B")
      (some "UPI") none]
    _ _ (by decide) (by decide) (by simp) (by simp) (by decide)

/-! ## Lemmas and claims: the Amount column -/

/-- Splitting text free of the separator is the identity. -/
theorem splitOnCh_of_not_mem {sep : Char} :
    ∀ (l : List Char), sep ∉ l → splitOnCh sep l = [l] := by
  intro l
  induction l with
  | nil => intro _; rfl
  | cons c t ih =>
    intro h
    rw [List.mem_cons, not_or] at h
    obtain ⟨h1, h2⟩ := h
    simp only [splitOnCh]
    rw [if_neg (fun e => h1 e.symm), ih h2]

/-- Splitting after a separator-free prefix peels that prefix off. -/
theorem splitOnCh_append {sep : Char} :
    ∀ (a b : List Char), sep ∉ a →
      splitOnCh sep (a ++ sep :: b) = a :: splitOnCh sep b := by
  intro a
  induction a with
  | nil =>
    intro b _
    simp [splitOnCh]
  | cons c a2 ih =>
    intro b h
    rw [List.mem_cons, not_or] at h
    obtain ⟨h1, h2⟩ := h
    simp only [List.cons_append, splitOnCh, List.append_eq]
    rw [if_neg (fun e => h1 e.symm), ih b h2]

/-- Splitting inverts joining for separator-free parts. -/
theorem splitOnCh_joinWith {sep : Char} :
    ∀ (parts : List (List Char)), parts ≠ [] → (∀ p ∈ parts, sep ∉ p) →
      splitOnCh sep (joinWith sep parts) = parts := by
  intro parts
  induction parts with
  | nil => intro h _; exact absurd rfl h
  | cons x parts2 ih =>
    intro _ hmem
    cases parts2 with
    | nil =>
      show splitOnCh sep (joinWith sep [x]) = [x]
      simp only [joinWith]
      exact splitOnCh_of_not_mem x (hmem x (by simp))
    | cons y r =>
      have hjoin : joinWith sep (x :: y :: r) = x ++ sep :: joinWith sep (y :: r) := by
        simp only [joinWith]
      rw [hjoin, splitOnCh_append x _ (hmem x (by simp)),
        ih (by simp) (fun p hp => hmem p (by simp [hp]))]

/-- A character of a join is the separator or a character of some part. -/
theorem mem_joinWith {sep : Char} :
    ∀ (parts : List (List Char)) (x : Char), x ∈ joinWith sep parts →
      x = sep ∨ ∃ p ∈ parts, x ∈ p := by
  intro parts
  induction parts with
  | nil => intro x hx; simp [joinWith] at hx
  | cons p parts2 ih =>
    intro x hx
    cases parts2 with
    | nil =>
      simp only [joinWith] at hx
      exact Or.inr ⟨p, by simp, hx⟩
    | cons y r =>
      simp only [joinWith] at hx
      rw [List.mem_append] at hx
      rcases hx with hx | hx
      · exact Or.inr ⟨p, by simp, hx⟩
      · rw [List.mem_cons] at hx
        rcases hx with rfl | hx
        · exact Or.inl rfl
        · rcases ih x hx with h | ⟨q, hq, hxq⟩
          · exact Or.inl h
          · exact Or.inr ⟨q, by simp [hq], hxq⟩

/-- The embedded csv parse inverts rendering, for tables of plain nonblank
rows. -/
theorem readCsv_render (t : List Row)
    (hne : t ≠ [])
    (hrows : ∀ row ∈ t, row ≠ [] ∧ (∀ cell ∈ row, ',' ∉ cell ∧ '\n' ∉ cell) ∧
      joinWith ',' row ≠ []) :
    readCsvTable (renderCsv t) = t := by
  unfold readCsvTable renderCsv
  have hlinefree : ∀ line ∈ t.map (joinWith ','), '\n' ∉ line := by
    intro line hline
    rw [List.mem_map] at hline
    obtain ⟨row, hrow, hrowline⟩ := hline
    intro hmem
    rw [← hrowline] at hmem
    rcases mem_joinWith row '\n' hmem with h | ⟨cell, hcell, hmemc⟩
    · exact absurd h (by decide)
    · exact ((hrows row hrow).2.1 cell hcell).2 hmemc
  rw [splitOnCh_joinWith (t.map (joinWith ',')) (by simpa using hne) hlinefree]
  have hfilter : (t.map (joinWith ',')).filter (· ≠ []) = t.map (joinWith ',') := by
    rw [List.filter_eq_self]
    intro line hline
    rw [List.mem_map] at hline
    obtain ⟨row, hrow, hrowline⟩ := hline
    rw [← hrowline]
    simpa using (hrows row hrow).2.2
  rw [hfilter, List.map_map]
  have hid : ∀ row ∈ t, splitOnCh ',' (joinWith ',' row) = row := by
    intro row hrow
    exact splitOnCh_joinWith row (hrows row hrow).1
      (fun cell hcell => ((hrows row hrow).2.1 cell hcell).1)
  calc t.map (splitOnCh ',' ∘ joinWith ',')
      = t.map id := List.map_congr_left (fun row hrow => hid row hrow)
    _ = t := List.map_id t

/-- Claim C7: loading the rendering of a well-formed table with N data
rows yields the header and exactly the N rows, unchanged and in order
(the first row is the header and the data rows map positionally);
enrichment yields exactly N records carrying those rows; and the Amount
cells, where the column is present, are the original cells row by row. -/
theorem csv_roundtrip :
    ∀ (header : Row) (rows : List Row), wellformedCsv header rows →
      readCsvTable (renderCsv (header :: rows)) = header :: rows ∧
      (∃ recs, enrichTable header rows = some recs ∧
        recs.length = rows.length ∧ recs.map EnrichedRow.row = rows) ∧
      (∀ j, colIndex header "Amount".data = some j →
        amountCells header rows = some (rows.map (fun r => cellAt r j))) := by
  intro header rows hwf
  obtain ⟨hhne, hhjoin, hnarr, hhcells, hrows⟩ := hwf
  refine ⟨?_, ?_, ?_⟩
  · apply readCsv_render
    · simp
    · intro row hrow
      rw [List.mem_cons] at hrow
      rcases hrow with rfl | hrow
      · exact ⟨hhne, fun cell hcell =>
          ⟨(hhcells cell hcell).1, (hhcells cell hcell).2.1⟩, hhjoin⟩
      · exact ⟨(hrows row hrow).1, fun cell hcell =>
          ⟨((hrows row hrow).2.2.1 cell hcell).1,
            ((hrows row hrow).2.2.1 cell hcell).2.1⟩, (hrows row hrow).2.2.2⟩
  · have hsome : colIndex header "Narration".data ≠ none := by
      unfold colIndex
      unfold List.indexOf?
      rw [Ne, List.findIdx?_eq_none_iff]
      intro hall
      have := hall "Narration".data hnarr
      simp at this
    cases hc : colIndex header "Narration".data with
    | none => exact absurd hc hsome
    | some j =>
      refine ⟨rows.map (enrichRow header), ?_, by simp, ?_⟩
      · unfold enrichTable
        rw [hc]
        rfl
      · rw [List.map_map]
        have : ∀ r ∈ rows, (EnrichedRow.row ∘ enrichRow header) r = id r := by
          intro r _
          rfl
        rw [List.map_congr_left this, List.map_id]
  · intro j hj
    unfold amountCells
    rw [hj]
    rfl

/-- Claim C7, witness: a two-row table with narrations and amounts loads
back exactly, enriches to two records, and keeps both Amount cells. -/
theorem csv_roundtrip_witness :
    readCsvTable (renderCsv [["Narration".data, "Amount".data],
        ["upi to X".data, "100".data], ["cash wdl".data, "50".data]])
      = [["Narration".data, "Amount".data],
        ["upi to X".data, "100".data], ["cash wdl".data, "50".data]] ∧
    (∃ recs, enrichTable ["Narration".data, "Amount".data]
        [["upi to X".data, "100".data], ["cash wdl".data, "50".data]] = some recs ∧
      recs.length = 2 ∧
      recs.map EnrichedRow.row
        = [["upi to X".data, "100".data], ["cash wdl".data, "50".data]]) ∧
    amountCells ["Narration".data, "Amount".data]
        [["upi to X".data, "100".data], ["cash wdl".data, "50".data]]
      = some ["100".data, "50".data] := by
  have h := csv_roundtrip ["Narration".data, "Amount".data]
    [["upi to X".data, "100".data], ["cash wdl".data, "50".data]]
    (by refine ⟨by decide, by decide, by decide, by decide, ?_⟩
        intro row hrow
        simp only [List.mem_cons, List.not_mem_nil, or_false] at hrow
        rcases hrow with rfl | rfl <;> exact ⟨by decide, by decide, by decide, by decide⟩)
  refine ⟨h.1, ?_, ?_⟩
  · obtain ⟨recs, h1, h2, h3⟩ := h.2.1
    exact ⟨recs, h1, by rw [h2]; rfl, h3⟩
  · have := h.2.2 1 (by decide)
    rw [this]
    rfl

/-! ## Lemmas and claims: the document path and the dispatch -/

/-- Folding string append from any accumulator is appending the join. -/
theorem join_foldl : ∀ (l : List String) (acc : String),
    l.foldl (fun r s => r ++ s) acc = acc ++ String.join l := by
  intro l
  induction l with
  | nil =>
    intro acc
    show acc = acc ++ String.join []
    rw [show String.join [] = "" from rfl, String.append_empty]
  | cons x t ih =>
    intro acc
    show t.foldl _ (acc ++ x) = acc ++ String.join (x :: t)
    rw [ih (acc ++ x)]
    have hj : String.join (x :: t) = x ++ String.join t := by
      show t.foldl _ ("" ++ x) = _
      rw [String.empty_append, ih x]
    rw [hj, String.append_assoc]

/-- The word-processing extraction renders each paragraph followed by a
newline. -/
theorem docx_text_eq : ∀ (paras : List String),
    extract_text_from_docx paras = String.join (paras.map (· ++ "\n")) := by
  have aux : ∀ (paras : List String) (acc : String),
      paras.foldl (fun a p => a ++ p ++ "\n") acc
        = acc ++ String.join (paras.map (· ++ "\n")) := by
    intro paras
    induction paras with
    | nil =>
      intro acc
      show acc = acc ++ String.join []
      rw [show String.join [] = "" from rfl, String.append_empty]
    | cons p t ih =>
      intro acc
      show t.foldl _ (acc ++ p ++ "\n") = acc ++ String.join ((p ++ "\n") :: t.map (· ++ "\n"))
      rw [ih (acc ++ p ++ "\n")]
      have hj : String.join ((p ++ "\n") :: t.map (· ++ "\n"))
          = (p ++ "\n") ++ String.join (t.map (· ++ "\n")) := by
        show (t.map (· ++ "\n")).foldl _ ("" ++ (p ++ "\n")) = _
        rw [String.empty_append, join_foldl]
      rw [hj, String.append_assoc, String.append_assoc, String.append_assoc]
  intro paras
  unfold extract_text_from_docx
  rw [aux paras "", String.empty_append]

/-- Claim C5 (amended): a document upload always produces exactly one
record, whatever the page or paragraph count; its narration is the
concatenation of the page texts in physical order (PDF), respectively
each paragraph text followed by a newline, in document order
(word-processing). -/
theorem document_single_record :
    ∀ (ner : String → List (String × String)) (pages paras : List String),
      mainModel ner (UploadedFile.mk pdfMime "" [] pages []) =
        MainOutcome.mk []
          (some (MainData.document
            [docRecordOf (String.join pages) (ner (String.join pages))]
            TotalAmount.marker)) ∧
      mainModel ner (UploadedFile.mk docxMime "" [] [] paras) =
        MainOutcome.mk []
          (some (MainData.document
            [docRecordOf (String.join (paras.map (· ++ "\n")))
              (ner (String.join (paras.map (· ++ "\n"))))]
            TotalAmount.marker)) := by
  intro ner pages paras
  constructor
  · unfold mainModel dispatchDf
    rw [if_neg (by decide : ¬(pdfMime = csvMime)),
      if_neg (by decide : ¬(pdfMime = xlsxMime)), if_pos rfl]
    rfl
  · have hred : mainModel ner (UploadedFile.mk docxMime "" [] [] paras) =
        MainOutcome.mk []
          (some (MainData.document
            [docRecordOf (extract_text_from_docx paras)
              (ner (extract_text_from_docx paras))]
            TotalAmount.marker)) := by
      unfold mainModel dispatchDf
      rw [if_neg (by decide : ¬(docxMime = csvMime)),
        if_neg (by decide : ¬(docxMime = xlsxMime)),
        if_neg (by decide : ¬(docxMime = pdfMime)), if_pos rfl]
    rw [hred, docx_text_eq]

/-- Claim C5, counterexample: a one-paragraph document extracts with a
trailing newline, so the narration is NOT the newline-join of the
paragraph texts. -/
theorem docx_trailing_newline_counterexample :
    extract_text_from_docx ["hello"] = "hello\n" ∧
      extract_text_from_docx ["hello"] ≠ String.intercalate "\n" ["hello"] := by
  constructor
  · decide
  · decide

/-- Claim C3: an upload with an unsupported declared type is reported as
an unsupported format before any parsing, but the branch then falls
through: the following column access raises an unbound-variable error on
df, so the collaborator receives a second, different failure after the
descriptive one.  No records are produced. -/
theorem unsupported_type_two_failures :
    mainModel (fun _ => []) (UploadedFile.mk "text/plain" "" [] [] []) =
      MainOutcome.mk [PipeError.unsupportedFormat, PipeError.nameError "df"]
        none := rfl
